import Mathlib

/-!
Shallow embedding of `src/kiro_gateway/anthropic_streaming.py`.

The module under verification converts a decoded Kiro event stream into the
Anthropic Messages API format, either as an incremental SSE event sequence
(`stream_kiro_to_anthropic`) or as one collected response object
(`collect_anthropic_response`).

The frame decoder (`AwsEventStreamParser`) and the inline tool-call extractor
(`parse_bracket_tool_calls`) live in `kiro_gateway.parsers`, outside the
sources given here; the code treats them as black boxes.  We therefore model
their outputs as inputs of the embedding: the decoder yields a list of typed
events (`KEvent`) via `feed` plus a list of deferred tool calls via
`get_tool_calls`, and the extractor is an arbitrary function
`pbtc : String → List InlineToolCall`.  Likewise `json.loads` is an arbitrary
function `jloads : String → Option JVal` (`none` models a raised
`JSONDecodeError`/`ValueError`), and the wall clock `int(time.time()*1000)`
is a parameter `now`.  Yielded SSE frames are modelled structurally, one
constructor per `event:` name, carrying exactly the payload fields the code
varies (constant payload fields are omitted).
-/

/-- JSON values as this module sees them.  The code never inspects parsed
tool arguments beyond passing them through, so mappings are flat field lists
and every other value is an opaque literal; the empty mapping is `.obj []`. -/
inductive JVal where
  | obj (fields : List (String × String))
  | prim (lit : String)
deriving DecidableEq, Repr

/-- Result of `metadata.get("usage", ...)` plus the two keyed lookups:
`none` models a missing `inputTokens` / `outputTokens` key. -/
structure UsageInfo where
  inputTokens : Option Int
  outputTokens : Option Int
deriving DecidableEq, Repr

/-- One decoded upstream event as returned by `parser.feed`.  The code
dispatches on `event.get("type")`: `"content"` with its `"data"` string,
`"metadata"` with its usage mapping, anything else is ignored. -/
inductive KEvent where
  | content (data : String)
  | metadata (usage : UsageInfo)
  | other
deriving DecidableEq, Repr

/-- One inline tool invocation as returned by `parse_bracket_tool_calls`,
already carrying the defaults of `tc.get("name", "")` / `tc.get("arguments", ...)`. -/
structure InlineToolCall where
  name : String
  arguments : JVal
deriving DecidableEq, Repr

/-- The `arguments` field of an OpenAI-format tool call from
`parser.get_tool_calls()`: the code checks `isinstance(arguments, str)` and
JSON-decodes strings, passing other values through. -/
inductive OAIArgs where
  | str (s : String)
  | val (v : JVal)
deriving DecidableEq, Repr

/-- One deferred tool call as returned by `parser.get_tool_calls()`, with the
defaults of the lookups at keys "function", "name" (default "") and
"arguments" already applied. -/
structure DeferredToolCall where
  name : String
  arguments : OAIArgs
deriving DecidableEq, Repr

/-- A content block of the target schema: `{"type": "text", ...}` or
`{"type": "tool_use", ...}`. -/
inductive ContentBlock where
  | text (text : String)
  | toolUse (id : String) (name : String) (input : JVal)
deriving DecidableEq, Repr

/-- One yielded SSE frame, modelled structurally: one constructor per
`event:` name with the payload fields the code varies. -/
inductive SSE where
  | messageStart (id : String) (model : String)
  | contentBlockStart (index : Nat) (block : ContentBlock)
  | contentBlockDelta (index : Nat) (text : String)
  | contentBlockStop (index : Nat)
  | messageDelta (stopReason : String) (outputTokens : Int)
  | messageStop
  | error (message : String)
deriving DecidableEq, Repr

/-- Synthetic tool-use id `f"toolu_{int(time.time() * 1000)}_{idx}"` with the clock reading `now`. -/
def toolUseId (now : Nat) (idx : Nat) : String :=
  "toolu_" ++ toString now ++ "_" ++ toString idx

/-- The local state of one `stream_kiro_to_anthropic` invocation
(lines 60-67 of the source). -/
structure StreamState where
  accumulated_text : String
  tool_uses : List ContentBlock
  current_tool_index : Nat
  input_tokens : Int
  output_tokens : Int
  message_started : Bool
deriving DecidableEq, Repr

def initStreamState : StreamState :=
  { accumulated_text := ""
    tool_uses := []
    current_tool_index := 0
    input_tokens := 0
    output_tokens := 0
    message_started := false }

/-- Decoding `arguments = json.loads(arguments)` guarded by
`except (json.JSONDecodeError, ValueError): arguments = ... ` degrading to the
empty mapping (source lines 207-213). -/
def decodeArguments (jloads : String → Option JVal) : OAIArgs → JVal
  | .str s => (jloads s).getD (JVal.obj [])
  | .val v => v

/-- The `for tc in tool_calls` loop of the streaming inline-tool branch
(source lines 123-148): per invocation, append to `tool_uses`, yield a
`content_block_start` / `content_block_stop` pair at `current_tool_index`,
then increment the index. -/
def emitInline (now : Nat) : StreamState → List InlineToolCall → StreamState × List SSE
  | st, [] => (st, [])
  | st, tc :: rest =>
    let tu : ContentBlock := .toolUse (toolUseId now st.current_tool_index) tc.name tc.arguments
    let st1 : StreamState :=
      { st with
        tool_uses := st.tool_uses ++ [tu]
        current_tool_index := st.current_tool_index + 1 }
    let r := emitInline now st1 rest
    (r.1, .contentBlockStart st.current_tool_index tu ::
          .contentBlockStop st.current_tool_index :: r.2)

/-- Processing of one decoded event in `stream_kiro_to_anthropic`
(source lines 87-188): `content` events first emit `message_start` once,
then either the inline-tool start/stop pairs or a text block start plus a
delta; `metadata` events overwrite the token counters. -/
def streamStep (pbtc : String → List InlineToolCall) (now : Nat) (reqId model : String)
    (st : StreamState) (ev : KEvent) : StreamState × List SSE :=
  match ev with
  | .content content =>
    let pre : List SSE := if st.message_started then [] else [.messageStart reqId model]
    let st0 : StreamState := { st with message_started := true }
    let tcs := pbtc content
    if tcs.isEmpty then
      if content = "" then (st0, pre)
      else
        let starts : List SSE :=
          if st0.accumulated_text = "" then [.contentBlockStart 0 (.text "")] else []
        ({ st0 with accumulated_text := st0.accumulated_text ++ content },
         pre ++ starts ++ [.contentBlockDelta 0 content])
    else
      let r := emitInline now st0 tcs
      (r.1, pre ++ r.2)
  | .metadata usage =>
    ({ st with
       input_tokens := usage.inputTokens.getD 0
       output_tokens := usage.outputTokens.getD 0 }, [])
  | .other => (st, [])

/-- The main `for event in events` loop of `stream_kiro_to_anthropic`,
flattened over all chunks. -/
def processEvents (pbtc : String → List InlineToolCall) (now : Nat) (reqId model : String) :
    StreamState → List KEvent → StreamState × List SSE
  | st, [] => (st, [])
  | st, ev :: rest =>
    let r1 := streamStep pbtc now reqId model st ev
    let r2 := processEvents pbtc now reqId model r1.1 rest
    (r2.1, r1.2 ++ r2.2)

/-- The `for tool_call in parser_tool_calls` drain loop (source lines
205-245): each deferred call is emitted as a start/stop pair at index
`current_tool_index + off`, where `off` is `1` when `accumulated_text` is
non-empty and `0` otherwise. -/
def emitDeferred (jloads : String → Option JVal) (now : Nat) (off : Nat) :
    StreamState → List DeferredToolCall → StreamState × List SSE
  | st, [] => (st, [])
  | st, tc :: rest =>
    let args := decodeArguments jloads tc.arguments
    let tu : ContentBlock := .toolUse (toolUseId now st.current_tool_index) tc.name args
    let st1 : StreamState :=
      { st with
        tool_uses := st.tool_uses ++ [tu]
        current_tool_index := st.current_tool_index + 1 }
    let r := emitDeferred jloads now off st1 rest
    (r.1, .contentBlockStart (st.current_tool_index + off) tu ::
          .contentBlockStop (st.current_tool_index + off) :: r.2)

/-- End-of-stream handling of `stream_kiro_to_anthropic` (source lines
190-276): close the text block if any text accumulated, drain the deferred
tool calls, pick `stop_reason` from `tool_uses`, then yield `message_delta`
and `message_stop`. -/
def finishStream (jloads : String → Option JVal) (now : Nat)
    (deferred : List DeferredToolCall) (st : StreamState) : StreamState × List SSE :=
  let textStop : List SSE :=
    if st.accumulated_text = "" then [] else [.contentBlockStop 0]
  let off : Nat := if st.accumulated_text = "" then 0 else 1
  let r := emitDeferred jloads now off st deferred
  let stop_reason : String := if r.1.tool_uses.isEmpty then "end_turn" else "tool_use"
  (r.1, textStop ++ r.2 ++ [.messageDelta stop_reason r.1.output_tokens, .messageStop])

/-- One complete run of the `stream_kiro_to_anthropic` generator.  The
decoded input is `events` (from `parser.feed` over all chunks) plus
`deferred` (from `parser.get_tool_calls()`).  `failAfter = some (k, msg)`
models a fatal exception with text `msg` raised during record production
after `k` events were delivered: the `except` clause (source lines 278-289)
yields one `error` event and re-raises.  The result is the yielded event
list, the final state, and `some msg` when the run re-raised. -/
def stream_kiro_to_anthropic (pbtc : String → List InlineToolCall)
    (jloads : String → Option JVal) (now : Nat) (reqId model : String)
    (events : List KEvent) (deferred : List DeferredToolCall)
    (failAfter : Option (Nat × String)) : List SSE × StreamState × Option String :=
  match failAfter with
  | none =>
    let r := processEvents pbtc now reqId model initStreamState events
    let f := finishStream jloads now deferred r.1
    (r.2 ++ f.2, f.1, none)
  | some (k, msg) =>
    let r := processEvents pbtc now reqId model initStreamState (events.take k)
    (r.2 ++ [.error msg], r.1, some msg)

/-- The local state of one `collect_anthropic_response` invocation
(source lines 315-320). -/
structure CollectState where
  accumulated_text : String
  content_blocks : List ContentBlock
  input_tokens : Int
  output_tokens : Int
  stop_reason : String
deriving DecidableEq, Repr

def initCollectState : CollectState :=
  { accumulated_text := ""
    content_blocks := []
    input_tokens := 0
    output_tokens := 0
    stop_reason := "end_turn" }

/-- The `for tc in tool_calls` loop of the collector (source lines 350-357):
each inline invocation is appended as a tool-use block whose synthetic id is
built from `len(content_blocks)` at append time. -/
def appendCollectTools (now : Nat) : CollectState → List InlineToolCall → CollectState
  | st, [] => st
  | st, tc :: rest =>
    appendCollectTools now
      { st with
        content_blocks := st.content_blocks ++
          [.toolUse (toolUseId now st.content_blocks.length) tc.name tc.arguments] } rest

/-- Processing of one decoded event in `collect_anthropic_response`
(source lines 340-366). -/
def collectStep (pbtc : String → List InlineToolCall) (now : Nat)
    (st : CollectState) (ev : KEvent) : CollectState :=
  match ev with
  | .content content =>
    let tcs := pbtc content
    if tcs.isEmpty then
      { st with accumulated_text := st.accumulated_text ++ content }
    else
      { appendCollectTools now st tcs with stop_reason := "tool_use" }
  | .metadata usage =>
    { st with
      input_tokens := usage.inputTokens.getD 0
      output_tokens := usage.outputTokens.getD 0 }
  | .other => st

/-- The main event loop of `collect_anthropic_response`. -/
def collectLoop (pbtc : String → List InlineToolCall) (now : Nat) :
    CollectState → List KEvent → CollectState
  | st, [] => st
  | st, ev :: rest => collectLoop pbtc now (collectStep pbtc now st ev) rest

/-- The collected Anthropic response object, restricted to the fields the
code varies (`type`, `role` and `stop_sequence` are constants). -/
structure AnthropicResponse where
  id : String
  content : List ContentBlock
  model : String
  stop_reason : String
  input_tokens : Int
  output_tokens : Int
deriving DecidableEq, Repr

/-- One complete run of `collect_anthropic_response` (source lines 292-388).
The decoded input carries the same `deferred` list the parser would expose,
but the collector never calls `parser.get_tool_calls()`, so `deferred` is
unused: deferred tool calls are dropped in collection mode.  A text block
holding all accumulated text, if any, is inserted at the front of the block
list. -/
def collect_anthropic_response (pbtc : String → List InlineToolCall) (now : Nat)
    (reqId model : String) (events : List KEvent)
    (deferred : List DeferredToolCall) : AnthropicResponse :=
  let st := collectLoop pbtc now initCollectState events
  let content :=
    if st.accumulated_text = "" then st.content_blocks
    else ContentBlock.text st.accumulated_text :: st.content_blocks
  { id := reqId
    content := content
    model := model
    stop_reason := st.stop_reason
    input_tokens := st.input_tokens
    output_tokens := st.output_tokens }

/-- Indices of tool-use `content_block_start` events, in emission order. -/
def toolStartIndices (out : List SSE) : List Nat :=
  out.filterMap fun e =>
    match e with
    | .contentBlockStart i (.toolUse _ _ _) => some i
    | _ => none

/-- Tool-use blocks announced by `content_block_start` events, in order. -/
def startedToolBlocks (out : List SSE) : List ContentBlock :=
  out.filterMap fun e =>
    match e with
    | .contentBlockStart _ (ContentBlock.toolUse i n a) => some (ContentBlock.toolUse i n a)
    | _ => none

def isToolUseBlock : ContentBlock → Bool
  | .toolUse _ _ _ => true
  | _ => false

def isErrorEvent : SSE → Bool
  | .error _ => true
  | _ => false

def isDeltaEvent : SSE → Bool
  | .contentBlockDelta _ _ => true
  | _ => false

def isContentEvent : KEvent → Bool
  | .content _ => true
  | _ => false

/-- Number of inline tool invocations the extractor finds in one event. -/
def inlineCount (pbtc : String → List InlineToolCall) : KEvent → Nat
  | .content c => (pbtc c).length
  | _ => 0

/-- Total number of inline tool invocations over an event list. -/
def inlineSum (pbtc : String → List InlineToolCall) (events : List KEvent) : Nat :=
  (events.map (inlineCount pbtc)).sum

/-- Total number of tool invocations of one translation, inline or deferred. -/
def numInvocations (pbtc : String → List InlineToolCall) (events : List KEvent)
    (deferred : List DeferredToolCall) : Nat :=
  inlineSum pbtc events + deferred.length

/-- The usage mapping of the last metadata record, if any arrived. -/
def lastUsage (events : List KEvent) : Option UsageInfo :=
  (events.filterMap fun ev =>
    match ev with
    | KEvent.metadata u => some u
    | _ => none).getLast?

/-- An event satisfying the hypotheses of the no-content scenario: a content
record with empty text and no tool invocations, or any non-content record. -/
def quietEvent (pbtc : String → List InlineToolCall) : KEvent → Bool
  | .content c => decide (c = "") && (pbtc c).isEmpty
  | _ => true

/-- Simulation relation between the states of a streaming run and a
collection run over the same record prefix. -/
def SimInv (s : StreamState) (c : CollectState) : Prop :=
  s.tool_uses = c.content_blocks ∧
  s.current_tool_index = c.content_blocks.length ∧
  s.accumulated_text = c.accumulated_text

/-- Texts carried by content_block_delta events, in emission order. -/
def deltaTexts (out : List SSE) : List String :=
  out.filterMap fun e =>
    match e with
    | .contentBlockDelta _ t => some t
    | _ => none

/-- Concatenation of a list of text fragments, in order. -/
def concatTexts (l : List String) : String :=
  l.foldl (fun a b => a ++ b) ""

theorem emitInline_ct (now : Nat) (tcs : List InlineToolCall) :
    ∀ st : StreamState,
      (emitInline now st tcs).1.current_tool_index = st.current_tool_index + tcs.length := by
  induction tcs with
  | nil => intro st; rfl
  | cons tc rest ih =>
    intro st
    simp only [emitInline, ih]
    simp +arith

theorem emitInline_acc (now : Nat) (tcs : List InlineToolCall) :
    ∀ st : StreamState,
      (emitInline now st tcs).1.accumulated_text = st.accumulated_text := by
  induction tcs with
  | nil => intro st; rfl
  | cons tc rest ih => intro st; simp only [emitInline, ih]

theorem emitInline_in (now : Nat) (tcs : List InlineToolCall) :
    ∀ st : StreamState, (emitInline now st tcs).1.input_tokens = st.input_tokens := by
  induction tcs with
  | nil => intro st; rfl
  | cons tc rest ih => intro st; simp only [emitInline, ih]

theorem emitInline_out (now : Nat) (tcs : List InlineToolCall) :
    ∀ st : StreamState, (emitInline now st tcs).1.output_tokens = st.output_tokens := by
  induction tcs with
  | nil => intro st; rfl
  | cons tc rest ih => intro st; simp only [emitInline, ih]

theorem emitInline_tools (now : Nat) (tcs : List InlineToolCall) :
    ∀ st : StreamState,
      (emitInline now st tcs).1.tool_uses =
        st.tool_uses ++ startedToolBlocks (emitInline now st tcs).2 := by
  induction tcs with
  | nil => intro st; simp [emitInline, startedToolBlocks]
  | cons tc rest ih =>
    intro st
    simp only [emitInline, startedToolBlocks, List.filterMap_cons] at *
    simp [ih]

theorem emitInline_tools_len (now : Nat) (tcs : List InlineToolCall) :
    ∀ st : StreamState,
      (emitInline now st tcs).1.tool_uses.length = st.tool_uses.length + tcs.length := by
  induction tcs with
  | nil => intro st; simp [emitInline]
  | cons tc rest ih =>
    intro st
    simp only [emitInline, ih]
    simp +arith

theorem emitInline_indices (now : Nat) (tcs : List InlineToolCall) :
    ∀ st : StreamState,
      toolStartIndices (emitInline now st tcs).2 =
        List.range' st.current_tool_index tcs.length := by
  induction tcs with
  | nil => intro st; simp [emitInline, toolStartIndices]
  | cons tc rest ih =>
    intro st
    simp only [emitInline, toolStartIndices, List.filterMap_cons] at *
    simp [ih, List.range'_succ]

theorem emitInline_no_delta (now : Nat) (tcs : List InlineToolCall) :
    ∀ st : StreamState, ∀ e ∈ (emitInline now st tcs).2, isDeltaEvent e = false := by
  induction tcs with
  | nil => intro st e he; simp [emitInline] at he
  | cons tc rest ih =>
    intro st e he
    simp only [emitInline, List.mem_cons] at he
    rcases he with h | h | h
    · subst h; rfl
    · subst h; rfl
    · exact ih _ e h

theorem emitInline_no_error (now : Nat) (tcs : List InlineToolCall) :
    ∀ st : StreamState, ∀ e ∈ (emitInline now st tcs).2, isErrorEvent e = false := by
  induction tcs with
  | nil => intro st e he; simp [emitInline] at he
  | cons tc rest ih =>
    intro st e he
    simp only [emitInline, List.mem_cons] at he
    rcases he with h | h | h
    · subst h; rfl
    · subst h; rfl
    · exact ih _ e h

theorem emitDeferred_ct (jloads : String → Option JVal) (now off : Nat)
    (dcs : List DeferredToolCall) :
    ∀ st : StreamState,
      (emitDeferred jloads now off st dcs).1.current_tool_index =
        st.current_tool_index + dcs.length := by
  induction dcs with
  | nil => intro st; rfl
  | cons tc rest ih =>
    intro st
    simp only [emitDeferred, ih]
    simp +arith

theorem emitDeferred_out (jloads : String → Option JVal) (now off : Nat)
    (dcs : List DeferredToolCall) :
    ∀ st : StreamState,
      (emitDeferred jloads now off st dcs).1.output_tokens = st.output_tokens := by
  induction dcs with
  | nil => intro st; rfl
  | cons tc rest ih => intro st; simp only [emitDeferred, ih]

theorem emitDeferred_in (jloads : String → Option JVal) (now off : Nat)
    (dcs : List DeferredToolCall) :
    ∀ st : StreamState,
      (emitDeferred jloads now off st dcs).1.input_tokens = st.input_tokens := by
  induction dcs with
  | nil => intro st; rfl
  | cons tc rest ih => intro st; simp only [emitDeferred, ih]

theorem emitDeferred_tools_len (jloads : String → Option JVal) (now off : Nat)
    (dcs : List DeferredToolCall) :
    ∀ st : StreamState,
      (emitDeferred jloads now off st dcs).1.tool_uses.length =
        st.tool_uses.length + dcs.length := by
  induction dcs with
  | nil => intro st; simp [emitDeferred]
  | cons tc rest ih =>
    intro st
    simp only [emitDeferred, ih]
    simp +arith

theorem emitDeferred_indices (jloads : String → Option JVal) (now off : Nat)
    (dcs : List DeferredToolCall) :
    ∀ st : StreamState,
      toolStartIndices (emitDeferred jloads now off st dcs).2 =
        List.range' (st.current_tool_index + off) dcs.length := by
  induction dcs with
  | nil => intro st; simp [emitDeferred, toolStartIndices]
  | cons tc rest ih =>
    intro st
    simp only [emitDeferred, toolStartIndices, List.filterMap_cons] at *
    simp [ih, List.range'_succ]
    omega

theorem emitDeferred_no_error (jloads : String → Option JVal) (now off : Nat)
    (dcs : List DeferredToolCall) :
    ∀ st : StreamState, ∀ e ∈ (emitDeferred jloads now off st dcs).2,
      isErrorEvent e = false := by
  induction dcs with
  | nil => intro st e he; simp [emitDeferred] at he
  | cons tc rest ih =>
    intro st e he
    simp only [emitDeferred, List.mem_cons] at he
    rcases he with h | h | h
    · subst h; rfl
    · subst h; rfl
    · exact ih _ e h

theorem emitDeferred_mem (jloads : String → Option JVal) (now off : Nat)
    (dcs : List DeferredToolCall) :
    ∀ st : StreamState, ∀ dtc ∈ dcs, ∃ idx i,
      SSE.contentBlockStart idx
        (.toolUse i dtc.name (decodeArguments jloads dtc.arguments)) ∈
        (emitDeferred jloads now off st dcs).2 := by
  induction dcs with
  | nil => intro st dtc h; simp at h
  | cons tc rest ih =>
    intro st dtc h
    rcases List.mem_cons.mp h with h | h
    · subst h
      exact ⟨st.current_tool_index + off, toolUseId now st.current_tool_index, by
        simp [emitDeferred]⟩
    · obtain ⟨idx, i, hmem⟩ := ih _ dtc h
      exact ⟨idx, i, by simp only [emitDeferred, List.mem_cons]; right; right; exact hmem⟩

theorem emitInline_started (now : Nat) (tcs : List InlineToolCall) :
    ∀ st : StreamState,
      (emitInline now st tcs).1.message_started = st.message_started := by
  induction tcs with
  | nil => intro st; rfl
  | cons tc rest ih => intro st; simp only [emitInline, ih]

theorem streamStep_ct (pbtc : String → List InlineToolCall) (now : Nat)
    (reqId model : String) (st : StreamState) (ev : KEvent) :
    (streamStep pbtc now reqId model st ev).1.current_tool_index =
      st.current_tool_index + inlineCount pbtc ev := by
  cases ev with
  | content c =>
    simp only [streamStep, inlineCount]
    cases hp : pbtc c with
    | nil => simp only [List.isEmpty_nil, if_true, List.length_nil]; split <;> simp
    | cons a l => simp [emitInline_ct]
  | metadata u => rfl
  | other => rfl

theorem streamStep_tools_len (pbtc : String → List InlineToolCall) (now : Nat)
    (reqId model : String) (st : StreamState) (ev : KEvent) :
    (streamStep pbtc now reqId model st ev).1.tool_uses.length =
      st.tool_uses.length + inlineCount pbtc ev := by
  cases ev with
  | content c =>
    simp only [streamStep, inlineCount]
    cases hp : pbtc c with
    | nil => simp only [List.isEmpty_nil, if_true, List.length_nil]; split <;> simp
    | cons a l => simp [emitInline_tools_len]
  | metadata u => rfl
  | other => rfl

theorem streamStep_started (pbtc : String → List InlineToolCall) (now : Nat)
    (reqId model : String) (st : StreamState) (ev : KEvent) :
    (streamStep pbtc now reqId model st ev).1.message_started =
      (st.message_started || isContentEvent ev) := by
  cases ev with
  | content c =>
    simp only [streamStep, isContentEvent, Bool.or_true]
    split
    · split <;> simp
    · simp [emitInline_started]
  | metadata u => simp [streamStep, isContentEvent]
  | other => simp [streamStep, isContentEvent]

theorem streamStep_in (pbtc : String → List InlineToolCall) (now : Nat)
    (reqId model : String) (st : StreamState) (ev : KEvent) :
    (streamStep pbtc now reqId model st ev).1.input_tokens =
      (match ev with
       | KEvent.metadata u => u.inputTokens.getD 0
       | _ => st.input_tokens) := by
  cases ev with
  | content c =>
    simp only [streamStep]
    split
    · split <;> simp
    · simp [emitInline_in]
  | metadata u => rfl
  | other => rfl

theorem streamStep_out (pbtc : String → List InlineToolCall) (now : Nat)
    (reqId model : String) (st : StreamState) (ev : KEvent) :
    (streamStep pbtc now reqId model st ev).1.output_tokens =
      (match ev with
       | KEvent.metadata u => u.outputTokens.getD 0
       | _ => st.output_tokens) := by
  cases ev with
  | content c =>
    simp only [streamStep]
    split
    · split <;> simp
    · simp [emitInline_out]
  | metadata u => rfl
  | other => rfl


theorem toolStartIndices_append (a b : List SSE) :
    toolStartIndices (a ++ b) = toolStartIndices a ++ toolStartIndices b := by
  simp [toolStartIndices]

theorem startedToolBlocks_append (a b : List SSE) :
    startedToolBlocks (a ++ b) = startedToolBlocks a ++ startedToolBlocks b := by
  simp [startedToolBlocks]

theorem mem_ite_lists {α : Type} {P : Prop} [Decidable P] {e : α} {a b : List α}
    (h : e ∈ (if P then a else b)) : e ∈ a ∨ e ∈ b := by
  split at h
  · exact Or.inl h
  · exact Or.inr h

theorem streamStep_indices (pbtc : String → List InlineToolCall) (now : Nat)
    (reqId model : String) (st : StreamState) (ev : KEvent) :
    toolStartIndices (streamStep pbtc now reqId model st ev).2 =
      List.range' st.current_tool_index (inlineCount pbtc ev) := by
  cases ev with
  | content c =>
    rcases hp : pbtc c with _ | ⟨a, l⟩
    · simp only [streamStep, inlineCount, hp, List.isEmpty_nil, if_true, List.length_nil,
        List.range'_zero]
      split
      · split <;> simp [toolStartIndices]
      · split <;> split <;> simp [toolStartIndices, toolStartIndices_append]
    · simp only [streamStep, inlineCount, hp, List.isEmpty_cons, Bool.false_eq_true, if_false,
        toolStartIndices_append, emitInline_indices]
      split <;> simp [toolStartIndices]
  | metadata u => simp [streamStep, toolStartIndices, inlineCount]
  | other => simp [streamStep, toolStartIndices, inlineCount]

theorem streamStep_tools (pbtc : String → List InlineToolCall) (now : Nat)
    (reqId model : String) (st : StreamState) (ev : KEvent) :
    (streamStep pbtc now reqId model st ev).1.tool_uses =
      st.tool_uses ++ startedToolBlocks (streamStep pbtc now reqId model st ev).2 := by
  cases ev with
  | content c =>
    rcases hp : pbtc c with _ | ⟨a, l⟩
    · simp only [streamStep, hp, List.isEmpty_nil, if_true]
      split
      · split <;> simp [startedToolBlocks]
      · split <;> split <;> simp [startedToolBlocks, startedToolBlocks_append]
    · simp only [streamStep, hp, List.isEmpty_cons, Bool.false_eq_true, if_false,
        startedToolBlocks_append, emitInline_tools]
      split <;> simp [startedToolBlocks]
  | metadata u => simp [streamStep, startedToolBlocks]
  | other => simp [streamStep, startedToolBlocks]

theorem streamStep_no_error (pbtc : String → List InlineToolCall) (now : Nat)
    (reqId model : String) (st : StreamState) (ev : KEvent) :
    ∀ e ∈ (streamStep pbtc now reqId model st ev).2, isErrorEvent e = false := by
  intro e he
  cases ev with
  | content c =>
    rcases hp : pbtc c with _ | ⟨a, l⟩
    · simp only [streamStep, hp, List.isEmpty_nil, if_true] at he
      split at he
      · rcases mem_ite_lists he with h | h
        · simp at h
        · simp at h; subst h; rfl
      · rcases List.mem_append.mp he with h | h
        · rcases List.mem_append.mp h with h | h
          · rcases mem_ite_lists h with h | h
            · simp at h
            · simp at h; subst h; rfl
          · rcases mem_ite_lists h with h | h
            · simp at h; subst h; rfl
            · simp at h
        · simp at h; subst h; rfl
    · simp only [streamStep, hp, List.isEmpty_cons, Bool.false_eq_true, if_false] at he
      rcases List.mem_append.mp he with h | h
      · rcases mem_ite_lists h with h | h
        · simp at h
        · simp at h; subst h; rfl
      · exact emitInline_no_error now (a :: l) _ e h
  | metadata u => simp [streamStep] at he
  | other => simp [streamStep] at he

theorem processEvents_ct (pbtc : String → List InlineToolCall) (now : Nat)
    (reqId model : String) (events : List KEvent) :
    ∀ st : StreamState,
      (processEvents pbtc now reqId model st events).1.current_tool_index =
        st.current_tool_index + inlineSum pbtc events := by
  induction events with
  | nil => intro st; simp [processEvents, inlineSum]
  | cons ev rest ih =>
    intro st
    simp only [processEvents, ih, streamStep_ct, inlineSum, List.map_cons, List.sum_cons]
    omega

theorem processEvents_tools_len (pbtc : String → List InlineToolCall) (now : Nat)
    (reqId model : String) (events : List KEvent) :
    ∀ st : StreamState,
      (processEvents pbtc now reqId model st events).1.tool_uses.length =
        st.tool_uses.length + inlineSum pbtc events := by
  induction events with
  | nil => intro st; simp [processEvents, inlineSum]
  | cons ev rest ih =>
    intro st
    simp only [processEvents, ih, streamStep_tools_len, inlineSum, List.map_cons, List.sum_cons]
    omega

theorem processEvents_started (pbtc : String → List InlineToolCall) (now : Nat)
    (reqId model : String) (events : List KEvent) :
    ∀ st : StreamState,
      (processEvents pbtc now reqId model st events).1.message_started =
        (st.message_started || events.any isContentEvent) := by
  induction events with
  | nil => intro st; simp [processEvents]
  | cons ev rest ih =>
    intro st
    simp only [processEvents, ih, streamStep_started, List.any_cons]
    cases st.message_started <;> cases isContentEvent ev <;> simp

theorem processEvents_indices (pbtc : String → List InlineToolCall) (now : Nat)
    (reqId model : String) (events : List KEvent) :
    ∀ st : StreamState,
      toolStartIndices (processEvents pbtc now reqId model st events).2 =
        List.range' st.current_tool_index (inlineSum pbtc events) := by
  induction events with
  | nil => intro st; simp [processEvents, toolStartIndices, inlineSum]
  | cons ev rest ih =>
    intro st
    simp only [processEvents, toolStartIndices_append, ih, streamStep_indices, streamStep_ct,
      inlineSum, List.map_cons, List.sum_cons]
    rw [List.range'_append_1]
    congr 1
    omega

theorem processEvents_tools (pbtc : String → List InlineToolCall) (now : Nat)
    (reqId model : String) (events : List KEvent) :
    ∀ st : StreamState,
      (processEvents pbtc now reqId model st events).1.tool_uses =
        st.tool_uses ++ startedToolBlocks (processEvents pbtc now reqId model st events).2 := by
  induction events with
  | nil => intro st; simp [processEvents, startedToolBlocks]
  | cons ev rest ih =>
    intro st
    simp only [processEvents, startedToolBlocks_append, ih, streamStep_tools]
    simp

theorem processEvents_no_error (pbtc : String → List InlineToolCall) (now : Nat)
    (reqId model : String) (events : List KEvent) :
    ∀ st : StreamState, ∀ e ∈ (processEvents pbtc now reqId model st events).2,
      isErrorEvent e = false := by
  induction events with
  | nil => intro st e he; simp [processEvents] at he
  | cons ev rest ih =>
    intro st e he
    simp only [processEvents] at he
    rcases List.mem_append.mp he with h | h
    · exact streamStep_no_error pbtc now reqId model st ev e h
    · exact ih _ e h

theorem lastUsage_cons (ev : KEvent) (rest : List KEvent) :
    lastUsage (ev :: rest) =
      (match lastUsage rest with
       | some u => some u
       | none =>
         match ev with
         | KEvent.metadata u => some u
         | _ => none) := by
  cases ev with
  | metadata u =>
    have hdef : lastUsage (KEvent.metadata u :: rest) =
        (u :: (rest.filterMap fun ev =>
          match ev with
          | KEvent.metadata w => some w
          | _ => none)).getLast? := rfl
    rw [hdef]
    cases h : (rest.filterMap fun ev =>
        match ev with
        | KEvent.metadata w => some w
        | _ => none) with
    | nil => simp [lastUsage, h]
    | cons x xs =>
      have hl : lastUsage rest = (x :: xs).getLast? := by simp [lastUsage, h]
      rw [List.getLast?_cons_cons, ← hl]
      cases h2 : lastUsage rest with
      | some y => simp
      | none => rw [hl] at h2; simp at h2
  | content c =>
    have hdef : lastUsage (KEvent.content c :: rest) = lastUsage rest := rfl
    rw [hdef]
    cases h : lastUsage rest <;> simp
  | other =>
    have hdef : lastUsage (KEvent.other :: rest) = lastUsage rest := rfl
    rw [hdef]
    cases h : lastUsage rest <;> simp

theorem processEvents_tokens (pbtc : String → List InlineToolCall) (now : Nat)
    (reqId model : String) (events : List KEvent) :
    ∀ st : StreamState,
      ((processEvents pbtc now reqId model st events).1.input_tokens,
       (processEvents pbtc now reqId model st events).1.output_tokens) =
        (match lastUsage events with
         | some u => (u.inputTokens.getD 0, u.outputTokens.getD 0)
         | none => (st.input_tokens, st.output_tokens)) := by
  induction events with
  | nil => intro st; simp [processEvents, lastUsage]
  | cons ev rest ih =>
    intro st
    simp only [processEvents, ih, lastUsage_cons]
    cases h : lastUsage rest with
    | some u => simp
    | none =>
      cases ev with
      | metadata u => simp [streamStep_in, streamStep_out]
      | content c => simp [streamStep_in, streamStep_out]
      | other => simp [streamStep_in, streamStep_out]

theorem streamStep_msgStart (pbtc : String → List InlineToolCall) (now : Nat)
    (reqId model : String) (st : StreamState) (c : String)
    (h : st.message_started = false) :
    SSE.messageStart reqId model ∈ (streamStep pbtc now reqId model st (KEvent.content c)).2 := by
  simp only [streamStep, h, Bool.false_eq_true, if_false]
  split
  · split
    · simp
    · simp
  · simp

theorem processEvents_msgStart (pbtc : String → List InlineToolCall) (now : Nat)
    (reqId model : String) (events : List KEvent) :
    ∀ st : StreamState, st.message_started = false → events.any isContentEvent = true →
      SSE.messageStart reqId model ∈ (processEvents pbtc now reqId model st events).2 := by
  induction events with
  | nil => intro st h1 h2; simp at h2
  | cons ev rest ih =>
    intro st h1 h2
    simp only [processEvents, List.mem_append]
    cases hev : isContentEvent ev with
    | true =>
      left
      cases ev with
      | content c => exact streamStep_msgStart pbtc now reqId model st c h1
      | metadata u => simp [isContentEvent] at hev
      | other => simp [isContentEvent] at hev
    | false =>
      right
      have h1' : (streamStep pbtc now reqId model st ev).1.message_started = false := by
        rw [streamStep_started, h1, hev]; rfl
      have h2' : rest.any isContentEvent = true := by
        simp only [List.any_cons, hev, Bool.false_or] at h2
        exact h2
      exact ih _ h1' h2'

theorem quiet_process (pbtc : String → List InlineToolCall) (now : Nat)
    (reqId model : String) (events : List KEvent)
    (h : ∀ ev ∈ events, quietEvent pbtc ev = true) :
    ∀ st : StreamState, st.accumulated_text = "" → st.tool_uses = [] →
      ((processEvents pbtc now reqId model st events).2 =
        (if st.message_started = false ∧ events.any isContentEvent = true
         then [SSE.messageStart reqId model] else []) ∧
       (processEvents pbtc now reqId model st events).1.accumulated_text = "" ∧
       (processEvents pbtc now reqId model st events).1.tool_uses = []) := by
  induction events with
  | nil =>
    intro st hacc htools
    refine ⟨?_, hacc, htools⟩
    simp [processEvents]
  | cons ev rest ih =>
    intro st hacc htools
    have hev := h ev (List.mem_cons_self ev rest)
    have hrest : ∀ e ∈ rest, quietEvent pbtc e = true :=
      fun e he => h e (List.mem_cons_of_mem _ he)
    cases ev with
    | content c =>
      have hturn : c = "" ∧ (pbtc c).isEmpty = true := by
        simpa [quietEvent] using hev
      have hc : c = "" := hturn.1
      have hpc : pbtc c = [] := List.isEmpty_iff.mp hturn.2
      subst hc
      have hstep : streamStep pbtc now reqId model st (KEvent.content "") =
          ({ st with message_started := true },
           if st.message_started = true then [] else [SSE.messageStart reqId model]) := by
        simp [streamStep, hpc]
      simp only [processEvents, hstep]
      obtain ⟨hout, hacc2, htools2⟩ := ih hrest { st with message_started := true } hacc htools
      refine ⟨?_, hacc2, htools2⟩
      rw [hout]
      cases hms : st.message_started <;>
        simp [List.any_cons, isContentEvent]
    | metadata u =>
      have hstep : streamStep pbtc now reqId model st (KEvent.metadata u) =
          ({ st with
             input_tokens := u.inputTokens.getD 0
             output_tokens := u.outputTokens.getD 0 }, []) := rfl
      simp only [processEvents, hstep]
      obtain ⟨hout, hacc2, htools2⟩ := ih hrest
        { st with
          input_tokens := u.inputTokens.getD 0
          output_tokens := u.outputTokens.getD 0 } hacc htools
      refine ⟨?_, hacc2, htools2⟩
      rw [List.nil_append, hout]
      simp [List.any_cons, isContentEvent]
    | other =>
      have hstep : streamStep pbtc now reqId model st KEvent.other = (st, []) := rfl
      simp only [processEvents, hstep]
      obtain ⟨hout, hacc2, htools2⟩ := ih hrest st hacc htools
      refine ⟨?_, hacc2, htools2⟩
      rw [List.nil_append, hout]
      simp [List.any_cons, isContentEvent]

theorem appendCollectTools_acc (now : Nat) (tcs : List InlineToolCall) :
    ∀ c : CollectState, (appendCollectTools now c tcs).accumulated_text = c.accumulated_text := by
  induction tcs with
  | nil => intro c; rfl
  | cons tc rest ih => intro c; simp only [appendCollectTools, ih]

theorem appendCollectTools_stop (now : Nat) (tcs : List InlineToolCall) :
    ∀ c : CollectState, (appendCollectTools now c tcs).stop_reason = c.stop_reason := by
  induction tcs with
  | nil => intro c; rfl
  | cons tc rest ih => intro c; simp only [appendCollectTools, ih]

theorem appendCollectTools_in (now : Nat) (tcs : List InlineToolCall) :
    ∀ c : CollectState, (appendCollectTools now c tcs).input_tokens = c.input_tokens := by
  induction tcs with
  | nil => intro c; rfl
  | cons tc rest ih => intro c; simp only [appendCollectTools, ih]

theorem appendCollectTools_out (now : Nat) (tcs : List InlineToolCall) :
    ∀ c : CollectState, (appendCollectTools now c tcs).output_tokens = c.output_tokens := by
  induction tcs with
  | nil => intro c; rfl
  | cons tc rest ih => intro c; simp only [appendCollectTools, ih]

theorem appendCollectTools_len (now : Nat) (tcs : List InlineToolCall) :
    ∀ c : CollectState,
      (appendCollectTools now c tcs).content_blocks.length =
        c.content_blocks.length + tcs.length := by
  induction tcs with
  | nil => intro c; simp [appendCollectTools]
  | cons tc rest ih =>
    intro c
    simp only [appendCollectTools, ih]
    simp +arith

theorem appendCollectTools_all (now : Nat) (tcs : List InlineToolCall) :
    ∀ c : CollectState, (∀ b ∈ c.content_blocks, isToolUseBlock b = true) →
      ∀ b ∈ (appendCollectTools now c tcs).content_blocks, isToolUseBlock b = true := by
  induction tcs with
  | nil => intro c hall; exact hall
  | cons tc rest ih =>
    intro c hall
    refine ih _ ?_
    intro b hb
    simp only [List.mem_append, List.mem_singleton] at hb
    rcases hb with hb | hb
    · exact hall b hb
    · subst hb; rfl

theorem emitInline_sim (now : Nat) (tcs : List InlineToolCall) :
    ∀ (s : StreamState) (c : CollectState),
      s.tool_uses = c.content_blocks →
      s.current_tool_index = c.content_blocks.length →
      (emitInline now s tcs).1.tool_uses = (appendCollectTools now c tcs).content_blocks ∧
      (emitInline now s tcs).1.current_tool_index =
        (appendCollectTools now c tcs).content_blocks.length := by
  induction tcs with
  | nil => intro s c h1 h2; exact ⟨h1, h2⟩
  | cons tc rest ih =>
    intro s c h1 h2
    simp only [emitInline, appendCollectTools]
    refine ih _ _ ?_ ?_
    · simp only [h1, h2]
    · simp only [h2]
      simp

theorem sim_step (pbtc : String → List InlineToolCall) (now : Nat) (reqId model : String)
    (s : StreamState) (c : CollectState) (ev : KEvent) (hs : SimInv s c) :
    SimInv (streamStep pbtc now reqId model s ev).1 (collectStep pbtc now c ev) := by
  obtain ⟨h1, h2, h3⟩ := hs
  cases ev with
  | content ct =>
    rcases hp : pbtc ct with _ | ⟨a, l⟩
    · simp only [streamStep, collectStep, hp, List.isEmpty_nil, if_true]
      split
      · rename_i hct
        subst hct
        exact ⟨h1, h2, by simp [h3]⟩
      · exact ⟨h1, h2, by simp [h3]⟩
    · simp only [streamStep, collectStep, hp, List.isEmpty_cons, Bool.false_eq_true, if_false]
      have := emitInline_sim now (a :: l)
        { s with message_started := true } c (by simpa using h1) (by simpa using h2)
      refine ⟨by simpa using this.1, by simpa using this.2, ?_⟩
      rw [emitInline_acc]
      simpa [appendCollectTools_acc] using h3
  | metadata u => exact ⟨h1, h2, h3⟩
  | other => exact ⟨h1, h2, h3⟩

theorem sim_loop (pbtc : String → List InlineToolCall) (now : Nat) (reqId model : String)
    (events : List KEvent) :
    ∀ (s : StreamState) (c : CollectState), SimInv s c →
      SimInv (processEvents pbtc now reqId model s events).1 (collectLoop pbtc now c events) := by
  induction events with
  | nil => intro s c hs; exact hs
  | cons ev rest ih =>
    intro s c hs
    simp only [processEvents, collectLoop]
    exact ih _ _ (sim_step pbtc now reqId model s c ev hs)

theorem collectStep_inv (pbtc : String → List InlineToolCall) (now : Nat)
    (c : CollectState) (ev : KEvent)
    (hiff : c.stop_reason = "tool_use" ↔ c.content_blocks ≠ [])
    (hor : c.stop_reason = "tool_use" ∨ c.stop_reason = "end_turn")
    (hall : ∀ b ∈ c.content_blocks, isToolUseBlock b = true) :
    ((collectStep pbtc now c ev).stop_reason = "tool_use" ↔
      (collectStep pbtc now c ev).content_blocks ≠ []) ∧
    ((collectStep pbtc now c ev).stop_reason = "tool_use" ∨
      (collectStep pbtc now c ev).stop_reason = "end_turn") ∧
    (∀ b ∈ (collectStep pbtc now c ev).content_blocks, isToolUseBlock b = true) := by
  cases ev with
  | content ct =>
    rcases hp : pbtc ct with _ | ⟨a, l⟩
    · simp only [collectStep, hp, List.isEmpty_nil, if_true]
      exact ⟨hiff, hor, hall⟩
    · simp only [collectStep, hp, List.isEmpty_cons, Bool.false_eq_true, if_false]
      refine ⟨?_, Or.inl (by trivial), appendCollectTools_all now (a :: l) c hall⟩
      have hlen : (appendCollectTools now c (a :: l)).content_blocks.length =
          c.content_blocks.length + (a :: l).length := appendCollectTools_len now (a :: l) c
      constructor
      · intro _
        intro hnil
        rw [hnil] at hlen
        simp only [List.length_nil, List.length_cons] at hlen
        omega
      · intro _
        trivial
  | metadata u => exact ⟨hiff, hor, hall⟩
  | other => exact ⟨hiff, hor, hall⟩

theorem collectLoop_inv (pbtc : String → List InlineToolCall) (now : Nat)
    (events : List KEvent) :
    ∀ c : CollectState,
      (c.stop_reason = "tool_use" ↔ c.content_blocks ≠ []) →
      (c.stop_reason = "tool_use" ∨ c.stop_reason = "end_turn") →
      (∀ b ∈ c.content_blocks, isToolUseBlock b = true) →
      (((collectLoop pbtc now c events).stop_reason = "tool_use" ↔
          (collectLoop pbtc now c events).content_blocks ≠ []) ∧
       ((collectLoop pbtc now c events).stop_reason = "tool_use" ∨
          (collectLoop pbtc now c events).stop_reason = "end_turn") ∧
       (∀ b ∈ (collectLoop pbtc now c events).content_blocks, isToolUseBlock b = true)) := by
  induction events with
  | nil => intro c hiff hor hall; exact ⟨hiff, hor, hall⟩
  | cons ev rest ih =>
    intro c hiff hor hall
    obtain ⟨h1, h2, h3⟩ := collectStep_inv pbtc now c ev hiff hor hall
    exact ih _ h1 h2 h3

theorem collectStep_in (pbtc : String → List InlineToolCall) (now : Nat)
    (c : CollectState) (ev : KEvent) :
    (collectStep pbtc now c ev).input_tokens =
      (match ev with
       | KEvent.metadata u => u.inputTokens.getD 0
       | _ => c.input_tokens) := by
  cases ev with
  | content ct =>
    simp only [collectStep]
    split
    · rfl
    · simp [appendCollectTools_in]
  | metadata u => rfl
  | other => rfl

theorem collectStep_out (pbtc : String → List InlineToolCall) (now : Nat)
    (c : CollectState) (ev : KEvent) :
    (collectStep pbtc now c ev).output_tokens =
      (match ev with
       | KEvent.metadata u => u.outputTokens.getD 0
       | _ => c.output_tokens) := by
  cases ev with
  | content ct =>
    simp only [collectStep]
    split
    · rfl
    · simp [appendCollectTools_out]
  | metadata u => rfl
  | other => rfl

theorem collectLoop_tokens (pbtc : String → List InlineToolCall) (now : Nat)
    (events : List KEvent) :
    ∀ c : CollectState,
      ((collectLoop pbtc now c events).input_tokens,
       (collectLoop pbtc now c events).output_tokens) =
        (match lastUsage events with
         | some u => (u.inputTokens.getD 0, u.outputTokens.getD 0)
         | none => (c.input_tokens, c.output_tokens)) := by
  induction events with
  | nil => intro c; simp [collectLoop, lastUsage]
  | cons ev rest ih =>
    intro c
    simp only [collectLoop, ih, lastUsage_cons]
    cases h : lastUsage rest with
    | some u => simp
    | none =>
      cases ev with
      | metadata u => simp [collectStep_in, collectStep_out]
      | content ct => simp [collectStep_in, collectStep_out]
      | other => simp [collectStep_in, collectStep_out]

theorem finishStream_indices (jloads : String → Option JVal) (now : Nat)
    (deferred : List DeferredToolCall) (st : StreamState) :
    toolStartIndices (finishStream jloads now deferred st).2 =
      List.range'
        (st.current_tool_index + (if st.accumulated_text = "" then 0 else 1))
        deferred.length := by
  simp only [finishStream, toolStartIndices_append]
  rw [emitDeferred_indices]
  by_cases h : st.accumulated_text = "" <;> simp [h, toolStartIndices]

theorem finishStream_shape (jloads : String → Option JVal) (now : Nat)
    (deferred : List DeferredToolCall) (st : StreamState) :
    ∃ pfx, (finishStream jloads now deferred st).2 =
      pfx ++ [SSE.messageDelta
          (if (finishStream jloads now deferred st).1.tool_uses.isEmpty
           then "end_turn" else "tool_use")
          (finishStream jloads now deferred st).1.output_tokens,
        SSE.messageStop] :=
  ⟨_, rfl⟩

theorem finishStream_empty (jloads : String → Option JVal) (now : Nat) (st : StreamState)
    (hacc : st.accumulated_text = "") (htools : st.tool_uses = []) :
    finishStream jloads now [] st =
      (st, [SSE.messageDelta "end_turn" st.output_tokens, SSE.messageStop]) := by
  simp [finishStream, emitDeferred, hacc, htools]

theorem finishStream_fst_tools_len (jloads : String → Option JVal) (now : Nat)
    (deferred : List DeferredToolCall) (st : StreamState) :
    (finishStream jloads now deferred st).1.tool_uses.length =
      st.tool_uses.length + deferred.length := by
  simp only [finishStream]
  rw [emitDeferred_tools_len]

theorem finishStream_fst_in (jloads : String → Option JVal) (now : Nat)
    (deferred : List DeferredToolCall) (st : StreamState) :
    (finishStream jloads now deferred st).1.input_tokens = st.input_tokens := by
  simp only [finishStream]
  rw [emitDeferred_in]

theorem finishStream_fst_out (jloads : String → Option JVal) (now : Nat)
    (deferred : List DeferredToolCall) (st : StreamState) :
    (finishStream jloads now deferred st).1.output_tokens = st.output_tokens := by
  simp only [finishStream]
  rw [emitDeferred_out]

theorem finishStream_no_deferred_blocks (jloads : String → Option JVal) (now : Nat)
    (st : StreamState) :
    startedToolBlocks (finishStream jloads now [] st).2 = [] := by
  simp only [finishStream, emitDeferred, startedToolBlocks_append]
  by_cases h : st.accumulated_text = "" <;> simp [h, startedToolBlocks]

theorem startedToolBlocks_all_toolUse (out : List SSE) :
    ∀ b ∈ startedToolBlocks out, isToolUseBlock b = true := by
  intro b hb
  simp only [startedToolBlocks, List.mem_filterMap] at hb
  obtain ⟨e, _, he⟩ := hb
  cases e with
  | contentBlockStart i blk =>
    cases blk with
    | text t => simp at he
    | toolUse i n a => simp at he; rw [← he]; rfl
  | messageStart a b => simp at he
  | contentBlockDelta i t => simp at he
  | contentBlockStop i => simp at he
  | messageDelta s o => simp at he
  | messageStop => simp at he
  | error m => simp at he

/-- C1 counterexample: with a text block already open at index 0 (record
"hi"), an inline tool call in the next record is emitted with block index
`current_tool_index = 0` — the index of the open text block is reused, so
the claim that no tool-use block is ever emitted with index 0 once a text
block has been opened there is false on the code. -/
theorem C1_counterexample :
    ((stream_kiro_to_anthropic
        (fun s => if s = "[T]" then [⟨"t", JVal.obj []⟩] else [])
        (fun _ => none) 0 "m" "mod"
        [KEvent.content "hi", KEvent.content "[T]"] [] none).1)[1]? =
      some (SSE.contentBlockStart 0 (ContentBlock.text "")) ∧
    ((stream_kiro_to_anthropic
        (fun s => if s = "[T]" then [⟨"t", JVal.obj []⟩] else [])
        (fun _ => none) 0 "m" "mod"
        [KEvent.content "hi", KEvent.content "[T]"] [] none).1)[3]? =
      some (SSE.contentBlockStart 0
        (ContentBlock.toolUse "toolu_0_0" "t" (JVal.obj []))) :=
  ⟨rfl, rfl⟩

/-- C1 (amended): within one streaming translation the indices of tool-use
content blocks are strictly increasing in emission order (hence never reused
among tool-use blocks), whether the run completes or is aborted by an error;
however, inline tool-use indices are not offset by an open text block (only
deferred ones are), so a tool-use block can share index 0 with the text
block. -/
theorem C1_tool_indices_increasing (pbtc : String → List InlineToolCall)
    (jloads : String → Option JVal) (now : Nat) (reqId model : String)
    (events : List KEvent) (deferred : List DeferredToolCall)
    (failAfter : Option (Nat × String)) :
    List.Pairwise (· < ·)
      (toolStartIndices
        (stream_kiro_to_anthropic pbtc jloads now reqId model events deferred failAfter).1) := by
  match failAfter with
  | none =>
    simp only [stream_kiro_to_anthropic, toolStartIndices_append]
    rw [processEvents_indices, finishStream_indices, processEvents_ct]
    rw [List.pairwise_append]
    refine ⟨List.pairwise_lt_range' _ _, List.pairwise_lt_range' _ _, ?_⟩
    intro x hx y hy
    rw [List.mem_range'_1] at hx hy
    simp only [initStreamState] at hx hy
    omega
  | some (k, msg) =>
    simp only [stream_kiro_to_anthropic, toolStartIndices_append]
    rw [processEvents_indices]
    have htail : toolStartIndices [SSE.error msg] = [] := rfl
    rw [htail, List.append_nil]
    exact List.pairwise_lt_range' _ _

/-- C4 counterexample: with no ContentRecord at all (and no tool calls), the
streaming translation emits only message_delta and message_stop — the
message_start event is missing, because it is only triggered by the first
content record; so the claim of exactly three events is false on the code. -/
theorem C4_counterexample :
    (stream_kiro_to_anthropic (fun _ => []) (fun _ => none) 0 "m" "mod"
        [] [] none).1 =
      [SSE.messageDelta "end_turn" 0, SSE.messageStop] :=
  rfl

/-- C4 (amended): if at least one ContentRecord arrives but no ContentRecord
contains text and no tool invocation occurs, streaming mode emits exactly
message_start, message_delta (stop_reason end_turn) and message_stop; with
zero ContentRecords the message_start event is additionally dropped. -/
theorem C4_no_content_scenario (pbtc : String → List InlineToolCall)
    (jloads : String → Option JVal) (now : Nat) (reqId model : String)
    (events : List KEvent)
    (hq : ∀ ev ∈ events, quietEvent pbtc ev = true)
    (hc : events.any isContentEvent = true) :
    (stream_kiro_to_anthropic pbtc jloads now reqId model events [] none).1 =
      [SSE.messageStart reqId model,
       SSE.messageDelta "end_turn"
         (stream_kiro_to_anthropic pbtc jloads now reqId model
           events [] none).2.1.output_tokens,
       SSE.messageStop] := by
  obtain ⟨hout, hacc, htools⟩ :=
    quiet_process pbtc now reqId model events hq initStreamState rfl rfl
  have hfin := finishStream_empty jloads now
    (processEvents pbtc now reqId model initStreamState events).1 hacc htools
  simp only [stream_kiro_to_anthropic, hout, hfin, hc]
  simp [initStreamState]

/-- Witness for C4 (amended) at the concrete input of one empty
ContentRecord. -/
theorem C4_no_content_scenario_witness :
    ((∀ ev ∈ [KEvent.content ""],
        quietEvent (fun _ => ([] : List InlineToolCall)) ev = true) ∧
     [KEvent.content ""].any isContentEvent = true) ∧
    (stream_kiro_to_anthropic (fun _ => []) (fun _ => none) 0 "m" "mod"
        [KEvent.content ""] [] none).1 =
      [SSE.messageStart "m" "mod",
       SSE.messageDelta "end_turn"
         (stream_kiro_to_anthropic (fun _ => []) (fun _ => none) 0 "m" "mod"
           [KEvent.content ""] [] none).2.1.output_tokens,
       SSE.messageStop] :=
  ⟨⟨by decide, rfl⟩,
   C4_no_content_scenario (fun _ => []) (fun _ => none) 0 "m" "mod"
     [KEvent.content ""] (by decide) rfl⟩

/-- C2: on the record sequence ContentRecord "Hello ", ContentRecord "world",
MetadataRecord (5 input and 2 output tokens), with neither text fragment
containing an inline tool-call marker, streaming mode emits exactly
message_start, content_block_start (index 0, empty text), two
content_block_delta events at index 0 with "Hello " and "world", one
content_block_stop at index 0, message_delta (end_turn, 2 output tokens),
and message_stop, in this order. -/
theorem C2_hello_world_scenario (pbtc : String → List InlineToolCall)
    (jloads : String → Option JVal) (now : Nat) (reqId model : String)
    (h1 : pbtc "Hello " = []) (h2 : pbtc "world" = []) :
    (stream_kiro_to_anthropic pbtc jloads now reqId model
        [KEvent.content "Hello ", KEvent.content "world",
         KEvent.metadata ⟨some 5, some 2⟩] [] none).1 =
      [SSE.messageStart reqId model,
       SSE.contentBlockStart 0 (ContentBlock.text ""),
       SSE.contentBlockDelta 0 "Hello ",
       SSE.contentBlockDelta 0 "world",
       SSE.contentBlockStop 0,
       SSE.messageDelta "end_turn" 2,
       SSE.messageStop] := by
  simp [stream_kiro_to_anthropic, processEvents, streamStep, finishStream, emitDeferred,
    initStreamState, h1, h2]

/-- Witness for C2 at the extractor that finds no markers anywhere. -/
theorem C2_hello_world_scenario_witness :
    ((fun _ : String => ([] : List InlineToolCall)) "Hello " = [] ∧
     (fun _ : String => ([] : List InlineToolCall)) "world" = []) ∧
    (stream_kiro_to_anthropic (fun _ => []) (fun _ => none) 0 "m" "mod"
        [KEvent.content "Hello ", KEvent.content "world",
         KEvent.metadata ⟨some 5, some 2⟩] [] none).1 =
      [SSE.messageStart "m" "mod",
       SSE.contentBlockStart 0 (ContentBlock.text ""),
       SSE.contentBlockDelta 0 "Hello ",
       SSE.contentBlockDelta 0 "world",
       SSE.contentBlockStop 0,
       SSE.messageDelta "end_turn" 2,
       SSE.messageStop] :=
  ⟨⟨rfl, rfl⟩,
   C2_hello_world_scenario (fun _ => []) (fun _ => none) 0 "m" "mod" rfl rfl⟩

/-- C3 counterexample: the collector never drains the deferred tool calls
from the decoder.  With an empty event stream and one deferred tool call,
the streaming emitter announces a tool-use block, but the collected object
has an empty content list — the deferred call does not appear in collected
content, so the claimed refinement is false on the code. -/
theorem C3_counterexample :
    (collect_anthropic_response (fun _ => []) 0 "m" "mod" []
        [⟨"f", OAIArgs.val (JVal.obj [])⟩]).content = [] ∧
    startedToolBlocks
      (stream_kiro_to_anthropic (fun _ => []) (fun _ => none) 0 "m" "mod" []
        [⟨"f", OAIArgs.val (JVal.obj [])⟩] none).1 =
      [ContentBlock.toolUse "toolu_0_0" "f" (JVal.obj [])] :=
  ⟨rfl, rfl⟩

/-- C5: in streaming mode the message_delta event closing the stream carries
stop_reason "tool_use" exactly when at least one tool invocation occurred
during the translation (inline in content text or deferred from the decoder
drain), and "end_turn" otherwise. -/
theorem C5_stream_stop_reason (pbtc : String → List InlineToolCall)
    (jloads : String → Option JVal) (now : Nat) (reqId model : String)
    (events : List KEvent) (deferred : List DeferredToolCall) :
    ∃ pfx tok,
      (stream_kiro_to_anthropic pbtc jloads now reqId model events deferred none).1 =
        pfx ++ [SSE.messageDelta
            (if 0 < numInvocations pbtc events deferred then "tool_use" else "end_turn")
            tok,
          SSE.messageStop] := by
  obtain ⟨p2, hp2⟩ := finishStream_shape jloads now deferred
    (processEvents pbtc now reqId model initStreamState events).1
  have hlen :
      (finishStream jloads now deferred
          (processEvents pbtc now reqId model initStreamState events).1).1.tool_uses.length =
        numInvocations pbtc events deferred := by
    rw [finishStream_fst_tools_len, processEvents_tools_len]
    rw [show initStreamState.tool_uses = [] from rfl]
    simp [numInvocations]
  have hsr :
      (if (finishStream jloads now deferred
            (processEvents pbtc now reqId model initStreamState events).1).1.tool_uses.isEmpty
        then "end_turn" else "tool_use") =
        (if 0 < numInvocations pbtc events deferred then "tool_use" else "end_turn") := by
    by_cases h : numInvocations pbtc events deferred = 0
    · have : (finishStream jloads now deferred
          (processEvents pbtc now reqId model initStreamState events).1).1.tool_uses = [] := by
        rw [← List.length_eq_zero, hlen, h]
      rw [this]
      simp [h]
    · have hne : (finishStream jloads now deferred
          (processEvents pbtc now reqId model initStreamState events).1).1.tool_uses ≠ [] := by
        intro hnil
        rw [hnil] at hlen
        simp at hlen
        exact h hlen.symm
      rw [if_neg (by simpa [List.isEmpty_iff] using hne), if_pos (by omega)]
  refine ⟨(processEvents pbtc now reqId model initStreamState events).2 ++ p2,
    (finishStream jloads now deferred
      (processEvents pbtc now reqId model initStreamState events).1).1.output_tokens, ?_⟩
  simp only [stream_kiro_to_anthropic]
  rw [hp2, hsr, List.append_assoc]

/-- C6: in collection mode the stop_reason of the returned object is
"tool_use" exactly when the returned content list contains at least one
tool-use block, and is "end_turn" otherwise (the only two values it takes). -/
theorem C6_collect_stop_reason (pbtc : String → List InlineToolCall) (now : Nat)
    (reqId model : String) (events : List KEvent) (deferred : List DeferredToolCall) :
    ((collect_anthropic_response pbtc now reqId model events deferred).stop_reason =
        "tool_use" ↔
      ∃ b ∈ (collect_anthropic_response pbtc now reqId model events deferred).content,
        isToolUseBlock b = true) ∧
    ((collect_anthropic_response pbtc now reqId model events deferred).stop_reason =
        "tool_use" ∨
     (collect_anthropic_response pbtc now reqId model events deferred).stop_reason =
        "end_turn") := by
  obtain ⟨h1, h2, h3⟩ := collectLoop_inv pbtc now events initCollectState
    (by simp [initCollectState]) (Or.inr rfl) (by simp [initCollectState])
  constructor
  · simp only [collect_anthropic_response]
    rw [h1]
    constructor
    · intro hne
      obtain ⟨b, hb⟩ := List.exists_mem_of_ne_nil _ hne
      refine ⟨b, ?_, h3 b hb⟩
      split
      · exact hb
      · exact List.mem_cons_of_mem _ hb
    · rintro ⟨b, hb, htool⟩
      split at hb
      · exact List.ne_nil_of_mem hb
      · rcases List.mem_cons.mp hb with hb | hb
        · subst hb; simp [isToolUseBlock] at htool
        · exact List.ne_nil_of_mem hb
  · simpa only [collect_anthropic_response] using h2

/-- C7: when record production fails with a fatal error after message_start
has been emitted, the streaming translation yields exactly one error event,
as the final item of the stream, and re-raises the failure to the caller —
the stream never ends silently on error. -/
theorem C7_error_event (pbtc : String → List InlineToolCall)
    (jloads : String → Option JVal) (now : Nat) (reqId model : String)
    (events : List KEvent) (deferred : List DeferredToolCall) (k : Nat) (msg : String)
    (h : (events.take k).any isContentEvent = true) :
    SSE.messageStart reqId model ∈
      (stream_kiro_to_anthropic pbtc jloads now reqId model events deferred
        (some (k, msg))).1 ∧
    (stream_kiro_to_anthropic pbtc jloads now reqId model events deferred
        (some (k, msg))).1.getLast? = some (SSE.error msg) ∧
    (stream_kiro_to_anthropic pbtc jloads now reqId model events deferred
        (some (k, msg))).1.countP isErrorEvent = 1 ∧
    (stream_kiro_to_anthropic pbtc jloads now reqId model events deferred
        (some (k, msg))).2.2 = some msg := by
  refine ⟨?_, ?_, ?_, rfl⟩
  · simp only [stream_kiro_to_anthropic, List.mem_append]
    exact Or.inl (processEvents_msgStart pbtc now reqId model (events.take k)
      initStreamState rfl h)
  · simp only [stream_kiro_to_anthropic]
    exact List.getLast?_concat _
  · simp only [stream_kiro_to_anthropic, List.countP_append]
    have hzero :
        (processEvents pbtc now reqId model initStreamState (events.take k)).2.countP
          isErrorEvent = 0 :=
      List.countP_eq_zero.mpr (by
        intro e he
        simp [processEvents_no_error pbtc now reqId model (events.take k)
          initStreamState e he])
    rw [hzero]
    rfl

/-- Witness for C7 at a concrete one-record stream failing after the first
record. -/
theorem C7_error_event_witness :
    ([KEvent.content "x"].take 1).any isContentEvent = true ∧
    (SSE.messageStart "m" "mod" ∈
      (stream_kiro_to_anthropic (fun _ => []) (fun _ => none) 0 "m" "mod"
        [KEvent.content "x"] [] (some (1, "boom"))).1 ∧
     (stream_kiro_to_anthropic (fun _ => []) (fun _ => none) 0 "m" "mod"
        [KEvent.content "x"] [] (some (1, "boom"))).1.getLast? =
          some (SSE.error "boom") ∧
     (stream_kiro_to_anthropic (fun _ => []) (fun _ => none) 0 "m" "mod"
        [KEvent.content "x"] [] (some (1, "boom"))).1.countP isErrorEvent = 1 ∧
     (stream_kiro_to_anthropic (fun _ => []) (fun _ => none) 0 "m" "mod"
        [KEvent.content "x"] [] (some (1, "boom"))).2.2 = some "boom") :=
  ⟨rfl,
   C7_error_event (fun _ => []) (fun _ => none) 0 "m" "mod"
     [KEvent.content "x"] [] 1 "boom" rfl⟩

/-- C8: a deferred tool invocation whose argument body fails JSON decoding
does not abort the translation: the run completes without raising, and the
invocation is still surfaced as a tool-use content block whose input is the
empty mapping. -/
theorem C8_malformed_arguments (pbtc : String → List InlineToolCall)
    (jloads : String → Option JVal) (now : Nat) (reqId model : String)
    (events : List KEvent) (deferred : List DeferredToolCall)
    (dtc : DeferredToolCall) (s : String)
    (hmem : dtc ∈ deferred) (hargs : dtc.arguments = OAIArgs.str s)
    (hbad : jloads s = none) :
    (stream_kiro_to_anthropic pbtc jloads now reqId model events deferred none).2.2 =
      none ∧
    ∃ idx i,
      SSE.contentBlockStart idx (ContentBlock.toolUse i dtc.name (JVal.obj [])) ∈
        (stream_kiro_to_anthropic pbtc jloads now reqId model events deferred none).1 := by
  refine ⟨rfl, ?_⟩
  have hdec : decodeArguments jloads dtc.arguments = JVal.obj [] := by
    rw [hargs]
    simp [decodeArguments, hbad]
  obtain ⟨idx, i, hmem2⟩ := emitDeferred_mem jloads now
    (if (processEvents pbtc now reqId model initStreamState events).1.accumulated_text = ""
     then 0 else 1) deferred
    (processEvents pbtc now reqId model initStreamState events).1 dtc hmem
  rw [hdec] at hmem2
  refine ⟨idx, i, ?_⟩
  simp only [stream_kiro_to_anthropic, finishStream, List.mem_append]
  exact Or.inr (Or.inl (Or.inr hmem2))

/-- Witness for C8 at one deferred tool call with an undecodable argument
string. -/
theorem C8_malformed_arguments_witness :
    ((⟨"f", OAIArgs.str "oops"⟩ : DeferredToolCall) ∈
        [(⟨"f", OAIArgs.str "oops"⟩ : DeferredToolCall)] ∧
     (⟨"f", OAIArgs.str "oops"⟩ : DeferredToolCall).arguments = OAIArgs.str "oops" ∧
     (fun _ : String => (none : Option JVal)) "oops" = none) ∧
    ((stream_kiro_to_anthropic (fun _ => []) (fun _ => none) 0 "m" "mod" []
        [⟨"f", OAIArgs.str "oops"⟩] none).2.2 = none ∧
     ∃ idx i,
       SSE.contentBlockStart idx
          (ContentBlock.toolUse i (⟨"f", OAIArgs.str "oops"⟩ : DeferredToolCall).name
            (JVal.obj [])) ∈
         (stream_kiro_to_anthropic (fun _ => []) (fun _ => none) 0 "m" "mod" []
           [⟨"f", OAIArgs.str "oops"⟩] none).1) :=
  ⟨⟨by decide, rfl, rfl⟩,
   C8_malformed_arguments (fun _ => []) (fun _ => none) 0 "m" "mod" []
     [⟨"f", OAIArgs.str "oops"⟩] ⟨"f", OAIArgs.str "oops"⟩ "oops"
     (by decide) rfl rfl⟩

/-- C9: a content record in which the extractor finds at least one inline
tool-call marker contributes no plain text: in streaming mode the step emits
no content_block_delta and leaves accumulated_text unchanged, and in
collection mode the step leaves accumulated_text unchanged. -/
theorem C9_marker_fragment_no_text (pbtc : String → List InlineToolCall)
    (now : Nat) (reqId model : String) (c : String)
    (st : StreamState) (cst : CollectState)
    (h : (pbtc c).isEmpty = false) :
    ((streamStep pbtc now reqId model st (KEvent.content c)).1.accumulated_text =
        st.accumulated_text ∧
     ∀ e ∈ (streamStep pbtc now reqId model st (KEvent.content c)).2,
       isDeltaEvent e = false) ∧
    (collectStep pbtc now cst (KEvent.content c)).accumulated_text =
      cst.accumulated_text := by
  rcases hp : pbtc c with _ | ⟨a, l⟩
  · rw [hp] at h
    simp at h
  · refine ⟨⟨?_, ?_⟩, ?_⟩
    · simp only [streamStep, hp, List.isEmpty_cons, Bool.false_eq_true, if_false]
      rw [emitInline_acc]
    · intro e he
      simp only [streamStep, hp, List.isEmpty_cons, Bool.false_eq_true, if_false] at he
      rcases List.mem_append.mp he with h2 | h2
      · rcases mem_ite_lists h2 with h2 | h2
        · simp at h2
        · simp at h2
          subst h2
          rfl
      · exact emitInline_no_delta now (a :: l) _ e h2
    · simp only [collectStep, hp, List.isEmpty_cons, Bool.false_eq_true, if_false]
      simp [appendCollectTools_acc]

/-- Witness for C9 at a concrete fragment the extractor resolves to one tool
call. -/
theorem C9_marker_fragment_no_text_witness :
    ((fun _ : String => [(⟨"t", JVal.obj []⟩ : InlineToolCall)]) "[x]").isEmpty = false ∧
    (((streamStep (fun _ => [⟨"t", JVal.obj []⟩]) 0 "m" "mod" initStreamState
          (KEvent.content "[x]")).1.accumulated_text =
        initStreamState.accumulated_text ∧
      ∀ e ∈ (streamStep (fun _ => [⟨"t", JVal.obj []⟩]) 0 "m" "mod" initStreamState
          (KEvent.content "[x]")).2,
        isDeltaEvent e = false) ∧
     (collectStep (fun _ => [⟨"t", JVal.obj []⟩]) 0 initCollectState
          (KEvent.content "[x]")).accumulated_text =
       initCollectState.accumulated_text) :=
  ⟨rfl,
   C9_marker_fragment_no_text (fun _ => [⟨"t", JVal.obj []⟩]) 0 "m" "mod" "[x]"
     initStreamState initCollectState rfl⟩

/-- C10: metadata records overwrite (never accumulate) both token counters,
defaulting missing fields to 0, in both modes; consequently the final usage
of a completed translation — the streaming final state whose output_tokens
feeds the closing message_delta, and the usage of the collected object — equals
the values of the last metadata record seen, or 0 when none arrived. -/
theorem C10_usage_last_metadata (pbtc : String → List InlineToolCall)
    (jloads : String → Option JVal) (now : Nat) (reqId model : String)
    (events : List KEvent) (deferred : List DeferredToolCall) :
    (∀ (st : StreamState) (u : UsageInfo),
       (streamStep pbtc now reqId model st (KEvent.metadata u)).1.input_tokens =
           u.inputTokens.getD 0 ∧
       (streamStep pbtc now reqId model st (KEvent.metadata u)).1.output_tokens =
           u.outputTokens.getD 0) ∧
    (∀ (cst : CollectState) (u : UsageInfo),
       (collectStep pbtc now cst (KEvent.metadata u)).input_tokens =
           u.inputTokens.getD 0 ∧
       (collectStep pbtc now cst (KEvent.metadata u)).output_tokens =
           u.outputTokens.getD 0) ∧
    ((stream_kiro_to_anthropic pbtc jloads now reqId model
        events deferred none).2.1.input_tokens,
     (stream_kiro_to_anthropic pbtc jloads now reqId model
        events deferred none).2.1.output_tokens) =
      (match lastUsage events with
       | some u => (u.inputTokens.getD 0, u.outputTokens.getD 0)
       | none => ((0 : Int), (0 : Int))) ∧
    ((collect_anthropic_response pbtc now reqId model events deferred).input_tokens,
     (collect_anthropic_response pbtc now reqId model events deferred).output_tokens) =
      (match lastUsage events with
       | some u => (u.inputTokens.getD 0, u.outputTokens.getD 0)
       | none => ((0 : Int), (0 : Int))) ∧
    ∃ pfx sr,
      (stream_kiro_to_anthropic pbtc jloads now reqId model events deferred none).1 =
        pfx ++ [SSE.messageDelta sr
            (stream_kiro_to_anthropic pbtc jloads now reqId model
              events deferred none).2.1.output_tokens,
          SSE.messageStop] := by
  refine ⟨fun st u => ⟨rfl, rfl⟩, fun cst u => ⟨rfl, rfl⟩, ?_, ?_, ?_⟩
  · have hp := processEvents_tokens pbtc now reqId model events initStreamState
    simp only [stream_kiro_to_anthropic]
    rw [finishStream_fst_in, finishStream_fst_out, hp]
    cases hlu : lastUsage events <;> simp [hlu, initStreamState]
  · have hp := collectLoop_tokens pbtc now events initCollectState
    simp only [collect_anthropic_response]
    rw [hp]
    cases hlu : lastUsage events <;> simp [hlu, initCollectState]
  · obtain ⟨p2, hp2⟩ := finishStream_shape jloads now deferred
      (processEvents pbtc now reqId model initStreamState events).1
    refine ⟨(processEvents pbtc now reqId model initStreamState events).2 ++ p2,
      (if (finishStream jloads now deferred
            (processEvents pbtc now reqId model initStreamState events).1).1.tool_uses.isEmpty
       then "end_turn" else "tool_use"), ?_⟩
    simp only [stream_kiro_to_anthropic]
    rw [hp2, List.append_assoc]

theorem deltaTexts_append (a b : List SSE) :
    deltaTexts (a ++ b) = deltaTexts a ++ deltaTexts b := by
  simp [deltaTexts]

theorem deltaTexts_eq_nil (l : List SSE) (h : ∀ e ∈ l, isDeltaEvent e = false) :
    deltaTexts l = [] := by
  simp only [deltaTexts, List.filterMap_eq_nil_iff]
  intro e he
  have hd := h e he
  cases e with
  | contentBlockDelta i t => simp [isDeltaEvent] at hd
  | messageStart a b => rfl
  | contentBlockStart i blk => rfl
  | contentBlockStop i => rfl
  | messageDelta s o => rfl
  | messageStop => rfl
  | error m => rfl

theorem concatTexts_from (l : List String) :
    ∀ s : String, l.foldl (fun a b => a ++ b) s = s ++ concatTexts l := by
  induction l with
  | nil => intro s; simp [concatTexts]
  | cons c t ih =>
    intro s
    show List.foldl (fun a b => a ++ b) (s ++ c) t = s ++ concatTexts (c :: t)
    rw [ih (s ++ c)]
    have hcons : concatTexts (c :: t) = c ++ concatTexts t := by
      show List.foldl (fun a b => a ++ b) ("" ++ c) t = c ++ concatTexts t
      rw [ih ("" ++ c), String.empty_append]
    rw [hcons, ← String.append_assoc]

theorem concatTexts_append (a b : List String) :
    concatTexts (a ++ b) = concatTexts a ++ concatTexts b := by
  show List.foldl (fun x y => x ++ y) "" (a ++ b) = _
  rw [List.foldl_append, concatTexts_from b]
  rfl

theorem emitDeferred_no_delta (jloads : String → Option JVal) (now off : Nat)
    (dcs : List DeferredToolCall) :
    ∀ st : StreamState, ∀ e ∈ (emitDeferred jloads now off st dcs).2,
      isDeltaEvent e = false := by
  induction dcs with
  | nil => intro st e he; simp [emitDeferred] at he
  | cons tc rest ih =>
    intro st e he
    simp only [emitDeferred, List.mem_cons] at he
    rcases he with h | h | h
    · subst h; rfl
    · subst h; rfl
    · exact ih _ e h

theorem streamStep_acc (pbtc : String → List InlineToolCall) (now : Nat)
    (reqId model : String) (st : StreamState) (ev : KEvent) :
    (streamStep pbtc now reqId model st ev).1.accumulated_text =
      st.accumulated_text ++
        concatTexts (deltaTexts (streamStep pbtc now reqId model st ev).2) := by
  cases ev with
  | content c =>
    rcases hp : pbtc c with _ | ⟨a, l⟩
    · simp only [streamStep, hp, List.isEmpty_nil, if_true]
      split
      · split <;> simp [deltaTexts, concatTexts]
      · split <;> split <;> simp [deltaTexts, concatTexts]
    · simp only [streamStep, hp, List.isEmpty_cons, Bool.false_eq_true, if_false]
      rw [emitInline_acc]
      have hnil : deltaTexts
          ((if st.message_started = true then [] else [SSE.messageStart reqId model]) ++
            (emitInline now { st with message_started := true } (a :: l)).2) = [] := by
        apply deltaTexts_eq_nil
        intro e he
        rcases List.mem_append.mp he with h2 | h2
        · rcases mem_ite_lists h2 with h2 | h2
          · simp at h2
          · simp at h2; subst h2; rfl
        · exact emitInline_no_delta now (a :: l) _ e h2
      rw [hnil]
      simp [concatTexts]
  | metadata u => simp [streamStep, deltaTexts, concatTexts]
  | other => simp [streamStep, deltaTexts, concatTexts]

theorem processEvents_acc (pbtc : String → List InlineToolCall) (now : Nat)
    (reqId model : String) (events : List KEvent) :
    ∀ st : StreamState,
      (processEvents pbtc now reqId model st events).1.accumulated_text =
        st.accumulated_text ++
          concatTexts (deltaTexts (processEvents pbtc now reqId model st events).2) := by
  induction events with
  | nil => intro st; simp [processEvents, deltaTexts, concatTexts]
  | cons ev rest ih =>
    intro st
    simp only [processEvents, deltaTexts_append, concatTexts_append]
    rw [ih, streamStep_acc, String.append_assoc]

theorem finishStream_deltaTexts (jloads : String → Option JVal) (now : Nat)
    (deferred : List DeferredToolCall) (st : StreamState) :
    deltaTexts (finishStream jloads now deferred st).2 = [] := by
  apply deltaTexts_eq_nil
  intro e he
  simp only [finishStream] at he
  rcases List.mem_append.mp he with h | h
  · rcases List.mem_append.mp h with h | h
    · rcases mem_ite_lists h with h | h
      · simp at h
      · simp at h; subst h; rfl
    · exact emitDeferred_no_delta jloads now _ deferred _ e h
  · rcases List.mem_cons.mp h with h | h
    · subst h; rfl
    · simp at h; subst h; rfl

/-- C3 (amended): the collector ignores the deferred tool-call records
entirely (the collected object does not depend on them), and for the same
records it produces exactly the inline-derived content the emitter streams
when no deferred tool call exists: its tool-use blocks coincide with the
tool-use blocks the emitter announces, and its whole content list is one
front text block holding the concatenation of all streamed
content_block_delta texts (omitted when that text is empty) followed by
those tool-use blocks.  Deferred tool calls appear only in streaming
output, never in collected content. -/
theorem C3_collector_matches_inline_stream (pbtc : String → List InlineToolCall)
    (jloads : String → Option JVal) (now : Nat) (reqId model : String)
    (events : List KEvent) (deferred : List DeferredToolCall) :
    collect_anthropic_response pbtc now reqId model events deferred =
      collect_anthropic_response pbtc now reqId model events [] ∧
    (collect_anthropic_response pbtc now reqId model events deferred).content.filter
        isToolUseBlock =
      startedToolBlocks
        (stream_kiro_to_anthropic pbtc jloads now reqId model events [] none).1 ∧
    (collect_anthropic_response pbtc now reqId model events deferred).content =
      (if concatTexts (deltaTexts
            (stream_kiro_to_anthropic pbtc jloads now reqId model events [] none).1) = ""
       then []
       else [ContentBlock.text (concatTexts (deltaTexts
            (stream_kiro_to_anthropic pbtc jloads now reqId model events [] none).1))]) ++
      startedToolBlocks
        (stream_kiro_to_anthropic pbtc jloads now reqId model events [] none).1 := by
  obtain ⟨hblocks, hct, haccsim⟩ := sim_loop pbtc now reqId model events
    initStreamState initCollectState ⟨rfl, rfl, rfl⟩
  have hall :
      ∀ b ∈ (collectLoop pbtc now initCollectState events).content_blocks,
        isToolUseBlock b = true := by
    obtain ⟨_, _, h3⟩ := collectLoop_inv pbtc now events initCollectState
      (by simp [initCollectState]) (Or.inr rfl) (by simp [initCollectState])
    exact h3
  have hstream :
      startedToolBlocks
          (stream_kiro_to_anthropic pbtc jloads now reqId model events [] none).1 =
        (processEvents pbtc now reqId model initStreamState events).1.tool_uses := by
    simp only [stream_kiro_to_anthropic, startedToolBlocks_append,
      finishStream_no_deferred_blocks, List.append_nil]
    have h := processEvents_tools pbtc now reqId model events initStreamState
    rw [show initStreamState.tool_uses = [] from rfl, List.nil_append] at h
    exact h.symm
  have htext :
      concatTexts (deltaTexts
          (stream_kiro_to_anthropic pbtc jloads now reqId model events [] none).1) =
        (processEvents pbtc now reqId model initStreamState events).1.accumulated_text := by
    simp only [stream_kiro_to_anthropic, deltaTexts_append, finishStream_deltaTexts,
      List.append_nil]
    have h := processEvents_acc pbtc now reqId model events initStreamState
    rw [show initStreamState.accumulated_text = "" from rfl, String.empty_append] at h
    exact h.symm
  refine ⟨rfl, ?_, ?_⟩
  · rw [hstream, hblocks]
    simp only [collect_anthropic_response]
    split
    · exact List.filter_eq_self.mpr hall
    · have hfilter :
          (ContentBlock.text
              (collectLoop pbtc now initCollectState events).accumulated_text ::
            (collectLoop pbtc now initCollectState events).content_blocks).filter
            isToolUseBlock =
          ((collectLoop pbtc now initCollectState events).content_blocks).filter
            isToolUseBlock := by
        simp [List.filter_cons, isToolUseBlock]
      rw [hfilter]
      exact List.filter_eq_self.mpr hall
  · rw [htext, haccsim, hstream, hblocks]
    simp only [collect_anthropic_response]
    by_cases hc : (collectLoop pbtc now initCollectState events).accumulated_text = "" <;>
      simp [hc]
